import Mathlib

/-!
Shallow embedding of the geomy volume-measurement core (geomy/core.py).

Rows of numpy arrays are modelled as lists of rationals (`Point`), so the
arithmetic of the source formulas is exact.  A function whose source begins
with an `assert` on the input's shape is modelled as `Option`-valued: `none`
is the assertion failure, `some v` the returned number.
-/

namespace Geomy

/-- One row of a numpy array: a point, one rational per axis. -/
abbrev Point := List ℚ

/-- Elementwise sum of two coordinate rows, as numpy broadcasting adds rows
of equal width. -/
def vadd (p q : Point) : Point := List.zipWith (· + ·) p q

/-- Model of `get_centroid` = `np.mean(points, axis = 0)`: columnwise sum of the
rows divided by the number of rows. -/
def get_centroid (pts : List Point) : Point :=
  match pts with
  | [] => []
  | p :: rest => (rest.foldl vadd p).map (fun x => x / ((rest.length + 1 : ℕ) : ℚ))

/-- A 2D point, for `get_area` (which asserts `points.shape[1] == 2`). -/
abbrev Pt2 := ℚ × ℚ

/-- The summand `x_i * y_j - y_i * x_j` of the shoelace formula; the two dot
products `dot(x, roll(y,-1)) - dot(y, roll(x,-1))` of the source sum exactly
these terms over cyclically consecutive index pairs. -/
def crossD (p q : Pt2) : ℚ := p.1 * q.2 - p.2 * q.1

/-- Model of `np.roll(v, -1)`: rotate the sequence left by one. -/
def roll1 (l : List α) : List α := l.drop 1 ++ l.take 1

/-- The signed shoelace sum `dot(x, roll(y,-1)) - dot(y, roll(x,-1))` of
`get_area`. -/
def shoelace (pts : List Pt2) : ℚ := (List.zipWith crossD pts (roll1 pts)).sum

/-- Model of `get_area`: `0.5 * abs(shoelace)`. -/
def get_area (pts : List Pt2) : ℚ := |shoelace pts| / 2

/-- The fan step of `triangulate`: triangles `(p0, l[i], l[i+1])` for every
consecutive pair of `l`. -/
def fan (p0 : α) : List α → List (α × α × α)
  | a :: b :: rest => (p0, a, b) :: fan p0 (b :: rest)
  | _ => []

/-- Model of `triangulate`: `[points[(0, i, i+1), :] for i in range(1, len(points)-1)]`,
the fan anchored at vertex 0; empty for fewer than 3 vertices. -/
def triangulate : List α → List (α × α × α)
  | p0 :: rest => fan p0 rest
  | [] => []

/-- Cofactor expansion of the 3x3 determinant with rows `(a b c) (d e f) (g h i)`;
this is the mathematical value `np.linalg.det` computes. -/
def det3 (a b c d e f g h i : ℚ) : ℚ :=
  a * (e * i - f * h) - b * (d * i - f * g) + c * (d * h - e * g)

/-- Row `i`, coordinate `j` of a list of points (indexing a numpy array whose
shape has already been checked; the defaults are never reached then). -/
def coordD (pts : List Point) (i j : ℕ) : ℚ := (pts.getD i []).getD j 0

/-- Model of `get_volume_tetra`: `assert points.shape == (4, 3)`, then
`|det(p1-p0; p2-p0; p3-p0)| / 6`. -/
def get_volume_tetra (pts : List Point) : Option ℚ :=
  if pts.length = 4 ∧ ∀ p ∈ pts, p.length = 3 then
    some (|det3
      (coordD pts 1 0 - coordD pts 0 0) (coordD pts 1 1 - coordD pts 0 1)
      (coordD pts 1 2 - coordD pts 0 2)
      (coordD pts 2 0 - coordD pts 0 0) (coordD pts 2 1 - coordD pts 0 1)
      (coordD pts 2 2 - coordD pts 0 2)
      (coordD pts 3 0 - coordD pts 0 0) (coordD pts 3 1 - coordD pts 0 1)
      (coordD pts 3 2 - coordD pts 0 2)| / 6)
  else none

/-- The running accumulation `volume = 0.0; for t in ts: volume += get_volume_tetra(t)`,
propagating an assertion failure of any summand. -/
def tetraSum (ts : List (List Point)) : Option ℚ :=
  ts.foldl (fun acc t => acc.bind (fun a => (get_volume_tetra t).map (fun v => a + v)))
    (some 0)

/-- The hard-coded decomposition table `tetra_indice` of `get_volume_hexa`. -/
def tetra_indice : List (List ℕ) := [[0,1,3,4], [1,2,3,6], [1,4,5,6], [3,4,6,7], [1,3,4,6]]

/-- Model of `get_volume_hexa`: `assert points.shape == (8, 3)`, then sum the
tetra volumes of the five index groups of `tetra_indice`. -/
def get_volume_hexa (pts : List Point) : Option ℚ :=
  if pts.length = 8 ∧ ∀ p ∈ pts, p.length = 3 then
    tetraSum (tetra_indice.map (fun g => g.map (fun i => pts.getD i [])))
  else none

/-- The tetra inputs built by `get_volume`'s nested loops: for each facet, for
each fan triangle, the centroid row prepended to the three triangle rows
(`np.concatenate((centroid, triangle))`). -/
def tetraInputs (c : Point) (facets : List (List Point)) : List (List Point) :=
  (facets.map (fun f => (triangulate f).map (fun t => [c, t.1, t.2.1, t.2.2]))).flatten

/-- Model of `get_volume`: `np.concatenate` fails on an empty facet list and on
ragged row widths; `np.unique(..., axis=0)` removes exact duplicate rows (its
sorting cannot change the subsequent mean, so only the deduplication is kept);
then the centroid-fan accumulation over all facets. -/
def get_volume (facets : List (List Point)) : Option ℚ :=
  match facets with
  | [] => none
  | _ :: _ =>
    let pts := facets.flatten
    if ∀ p ∈ pts, p.length = (pts.headD []).length then
      tetraSum (tetraInputs (get_centroid pts.dedup) facets)
    else none

/-- The 8 unit-cube vertices of the spec, in its order. -/
def cubePts : List Point :=
  [[0,0,0],[1,0,0],[1,1,0],[0,1,0],[0,0,1],[1,0,1],[1,1,1],[0,1,1]]

/-- The 6 unit-square facets of the unit cube, each wound counter-clockwise
as seen from outside the cube. -/
def cubeFacets : List (List Point) :=
  [ [[0,0,0],[0,1,0],[1,1,0],[1,0,0]],
    [[0,0,1],[1,0,1],[1,1,1],[0,1,1]],
    [[0,0,0],[1,0,0],[1,0,1],[0,0,1]],
    [[1,0,0],[1,1,0],[1,1,1],[1,0,1]],
    [[1,1,0],[0,1,0],[0,1,1],[1,1,1]],
    [[0,1,0],[0,0,0],[0,0,1],[0,1,1]] ]


/-- Signed double area of the triangle (o, a, b): the shoelace sum of its
3-vertex boundary (used to state convex position of a polygon). -/
def triArea2 (o a b : Pt2) : ℚ := crossD o a + crossD a b + crossD b o

/-- Path walk of the shoelace sum: summands along the list, closing back to
the first vertex. -/
def sAux (first : Pt2) : Pt2 → List Pt2 → ℚ
  | prev, [] => crossD prev first
  | prev, x :: xs => crossD prev x + sAux first x xs

/-! Helper lemmas. -/

/-- The fan has one triangle per consecutive pair of the tail. -/
theorem fan_length (p0 : α) (l : List α) : (fan p0 l).length = l.length - 1 := by
  induction l with
  | nil => simp [fan]
  | cons a t ih =>
    cases t with
    | nil => simp [fan]
    | cons b r => simp [fan] at ih ⊢; omega

/-- Entry `k` of the fan pairs tail entries `k` and `k+1` with the anchor. -/
theorem fan_getElem (p0 : α) (l : List α) (k : ℕ) (a b : α)
    (ha : l[k]? = some a) (hb : l[k+1]? = some b) :
    (fan p0 l)[k]? = some (p0, a, b) := by
  induction l generalizing k with
  | nil => simp at ha
  | cons x t ih =>
    cases t with
    | nil =>
      rcases k with _ | k <;> simp at hb
    | cons y r =>
      rcases k with _ | k
      · simp at ha hb
        subst ha; subst hb
        simp [fan]
      · simp at ha hb
        have := ih k (by simpa using ha) (by simpa using hb)
        simpa [fan] using this

/-- A fold step starting from a failed accumulator stays failed. -/
theorem tetraSum_go_none (ts : List (List Point)) :
    ts.foldl (fun acc t => acc.bind (fun a => (get_volume_tetra t).map (fun v => a + v)))
      none = none := by
  induction ts with
  | nil => rfl
  | cons t ts ih => simpa using ih

/-- A failing tetra anywhere in the list makes the whole accumulation fail. -/
theorem tetraSum_none_of_mem (ts : List (List Point)) (t : List Point)
    (ht : t ∈ ts) (hn : get_volume_tetra t = none) : tetraSum ts = none := by
  unfold tetraSum
  generalize (some (0 : ℚ)) = acc
  induction ts generalizing acc with
  | nil => simp at ht
  | cons u ts ih =>
    rcases List.mem_cons.mp ht with rfl | ht
    · cases acc <;> simp [hn, tetraSum_go_none]
    · exact ih ht _

/-- A polygon boundary with fewer than 3 vertices has no fan triangles. -/
theorem triangulate_nil_of_short (f : List α) (hf : f.length < 3) : triangulate f = [] := by
  rcases f with _ | ⟨a, _ | ⟨b, _ | ⟨c, r⟩⟩⟩
  · rfl
  · rfl
  · rfl
  · simp at hf; omega

end Geomy

namespace Geomy

/-! Claim theorems. -/

/-- C2: get_volume_hexa on the 8 unit-cube vertices returns exactly 1, and the
computation is the accumulated tetra volume of exactly the five vertex-index
groups (0,1,3,4), (1,2,3,6), (1,4,5,6), (3,4,6,7), (1,3,4,6). -/
theorem get_volume_hexa_unit_cube :
    get_volume_hexa cubePts = some 1
    ∧ get_volume_hexa cubePts = tetraSum
        [ [cubePts.getD 0 [], cubePts.getD 1 [], cubePts.getD 3 [], cubePts.getD 4 []],
          [cubePts.getD 1 [], cubePts.getD 2 [], cubePts.getD 3 [], cubePts.getD 6 []],
          [cubePts.getD 1 [], cubePts.getD 4 [], cubePts.getD 5 [], cubePts.getD 6 []],
          [cubePts.getD 3 [], cubePts.getD 4 [], cubePts.getD 6 [], cubePts.getD 7 []],
          [cubePts.getD 1 [], cubePts.getD 3 [], cubePts.getD 4 [], cubePts.getD 6 []] ] := by
  constructor
  · norm_num [get_volume_hexa, cubePts, tetraSum, tetra_indice, get_volume_tetra, det3, coordD]
  · rw [get_volume_hexa, if_pos]
    · norm_num [tetra_indice]
    · norm_num [cubePts]

/-- C4: get_volume_hexa fails (assertion on the (8,3) shape) for every input
whose point count is not 8 or whose points are not 3-dimensional. -/
theorem get_volume_hexa_invalid (pts : List Point)
    (h : pts.length ≠ 8 ∨ ∃ p ∈ pts, p.length ≠ 3) :
    get_volume_hexa pts = none := by
  rw [get_volume_hexa, if_neg]
  rintro ⟨h8, h3⟩
  rcases h with h | ⟨p, hp, hl⟩
  · exact h h8
  · exact hl (h3 p hp)

/-- C5: on any 4 points in 3D, get_volume_tetra returns |det M| / 6 with M the
matrix of edge vectors from the first point; the result is non-negative; and
coplanar input (all four points on one plane, e.g. all z = 0) yields exactly 0
with no failure. -/
theorem get_volume_tetra_formula (a0 a1 a2 b0 b1 b2 c0 c1 c2 d0 d1 d2 : ℚ) :
    get_volume_tetra [[a0,a1,a2],[b0,b1,b2],[c0,c1,c2],[d0,d1,d2]]
      = some (|(Matrix.of ![![b0-a0, b1-a1, b2-a2], ![c0-a0, c1-a1, c2-a2],
          ![d0-a0, d1-a1, d2-a2]]).det| / 6)
    ∧ (∀ v, get_volume_tetra [[a0,a1,a2],[b0,b1,b2],[c0,c1,c2],[d0,d1,d2]] = some v → 0 ≤ v)
    ∧ (∀ n0 n1 n2 k : ℚ, ¬ (n0 = 0 ∧ n1 = 0 ∧ n2 = 0) →
        n0*a0 + n1*a1 + n2*a2 = k → n0*b0 + n1*b1 + n2*b2 = k →
        n0*c0 + n1*c1 + n2*c2 = k → n0*d0 + n1*d1 + n2*d2 = k →
        get_volume_tetra [[a0,a1,a2],[b0,b1,b2],[c0,c1,c2],[d0,d1,d2]] = some 0) := by
  have hv : get_volume_tetra [[a0,a1,a2],[b0,b1,b2],[c0,c1,c2],[d0,d1,d2]]
      = some (|det3 (b0-a0) (b1-a1) (b2-a2) (c0-a0) (c1-a1) (c2-a2)
          (d0-a0) (d1-a1) (d2-a2)| / 6) := by
    rw [get_volume_tetra, if_pos (by norm_num)]
    norm_num [coordD]
  have hdet : det3 (b0-a0) (b1-a1) (b2-a2) (c0-a0) (c1-a1) (c2-a2) (d0-a0) (d1-a1) (d2-a2)
      = (Matrix.of ![![b0-a0, b1-a1, b2-a2], ![c0-a0, c1-a1, c2-a2],
          ![d0-a0, d1-a1, d2-a2]]).det := by
    rw [Matrix.det_fin_three]
    simp only [Matrix.of_apply, Matrix.cons_val_zero, Matrix.cons_val_one,
      Matrix.cons_val_two, Matrix.head_cons, Matrix.tail_cons]
    rw [det3]
    ring
  refine ⟨by rw [hv, hdet], ?_, ?_⟩
  · intro v hsome
    rw [hv] at hsome
    obtain rfl : |det3 (b0-a0) (b1-a1) (b2-a2) (c0-a0) (c1-a1) (c2-a2)
        (d0-a0) (d1-a1) (d2-a2)| / 6 = v := Option.some.inj hsome
    positivity
  · intro n0 n1 n2 k hn h1 h2 h3 h4
    have hM : (Matrix.of ![![b0-a0, b1-a1, b2-a2], ![c0-a0, c1-a1, c2-a2],
        ![d0-a0, d1-a1, d2-a2]]).det = 0 := by
      rw [← Matrix.exists_mulVec_eq_zero_iff]
      refine ⟨![n0, n1, n2], ?_, ?_⟩
      · intro h0
        apply hn
        refine ⟨?_, ?_, ?_⟩
        · simpa using congrFun h0 0
        · simpa using congrFun h0 1
        · simpa using congrFun h0 2
      · funext i
        fin_cases i
        · simp [Matrix.mulVec, Matrix.dotProduct, Fin.sum_univ_three, Matrix.of_apply]
          linear_combination h2 - h1
        · simp [Matrix.mulVec, Matrix.dotProduct, Fin.sum_univ_three, Matrix.of_apply]
          linear_combination h3 - h1
        · simp [Matrix.mulVec, Matrix.dotProduct, Fin.sum_univ_three, Matrix.of_apply]
          linear_combination h4 - h1
    rw [hv, hdet, hM]
    norm_num

/-- Witness for C5: a degenerate (coplanar, z = 0) tetrahedron gets volume 0. -/
theorem get_volume_tetra_formula_witness :
    get_volume_tetra [[0,0,0],[1,0,0],[0,1,0],[2,3,0]] = some 0 :=
  (get_volume_tetra_formula 0 0 0 1 0 0 0 1 0 2 3 0).2.2 0 0 1 0
    (by norm_num) (by norm_num) (by norm_num) (by norm_num) (by norm_num)

/-- Witness for C4: the empty input and an 8-point 1D input both fail. -/
theorem get_volume_hexa_invalid_witness :
    get_volume_hexa [] = none
    ∧ get_volume_hexa [[0],[0],[0],[0],[0],[0],[0],[0]] = none := by
  constructor
  · exact get_volume_hexa_invalid [] (Or.inl (by norm_num))
  · exact get_volume_hexa_invalid _ (Or.inr ⟨[0], by simp, by norm_num⟩)

/-- C6: for N >= 3 vertices, triangulate returns exactly N-2 triangles; triangle
k is the ordered triple of input vertices at indices (0, k+1, k+2), so vertex 0
is in every triangle; and the union of the index triples covers 0..N-1. -/
theorem triangulate_spec (α : Type) (pts : List α) (h : 3 ≤ pts.length) :
    (triangulate pts).length = pts.length - 2
    ∧ (∀ k, k + 2 < pts.length → ∃ a b c, pts[0]? = some a ∧ pts[k+1]? = some b
        ∧ pts[k+2]? = some c ∧ (triangulate pts)[k]? = some (a, b, c))
    ∧ (∀ i, i < pts.length → i = 0 ∨ ∃ k, k + 2 < pts.length ∧ (i = k+1 ∨ i = k+2)) := by
  obtain ⟨p0, rest, rfl⟩ : ∃ p0 rest, pts = p0 :: rest := by
    cases pts with
    | nil => simp at h
    | cons a t => exact ⟨a, t, rfl⟩
  simp only [List.length_cons] at h
  refine ⟨?_, ?_, ?_⟩
  · show (fan p0 rest).length = (p0 :: rest).length - 2
    rw [fan_length]
    simp only [List.length_cons]
    omega
  · intro k hk
    simp only [List.length_cons] at hk
    have hk1 : k + 1 < rest.length := by omega
    refine ⟨p0, rest.get ⟨k, by omega⟩, rest.get ⟨k + 1, hk1⟩, by simp, ?_, ?_, ?_⟩
    · simp
    · simp
    · show (fan p0 rest)[k]? = _
      apply fan_getElem <;> simp
  · intro i hi
    simp only [List.length_cons] at hi
    rcases Nat.eq_zero_or_pos i with rfl | hpos
    · exact Or.inl rfl
    · right
      by_cases hlast : i + 1 < rest.length + 1
      · exact ⟨i - 1, by simp only [List.length_cons]; omega, Or.inl (by omega)⟩
      · exact ⟨i - 2, by simp only [List.length_cons]; omega, Or.inr (by omega)⟩

/-- Witness for C6: the fan of a 4-vertex polygon has 2 triangles, the first
being vertices (0, 1, 2). -/
theorem triangulate_spec_witness :
    (triangulate [(10:ℕ), 20, 30, 40]).length = 2
    ∧ (triangulate [(10:ℕ), 20, 30, 40])[0]? = some (10, 20, 30) := by
  constructor
  · exact (triangulate_spec ℕ [10, 20, 30, 40] (by norm_num)).1
  · obtain ⟨a, b, c, ha, hb, hc, ht⟩ :=
      (triangulate_spec ℕ [10, 20, 30, 40] (by norm_num)).2.1 0 (by norm_num)
    simp at ha hb hc
    rw [ht, ha, hb, hc]

/-- C9: triangulate returns the empty list for 0, 1 or 2 vertices without error,
and inside get_volume such a facet contributes no tetra summands at all. -/
theorem triangulate_small_no_error (f : List Point) (hf : f.length < 3) :
    triangulate f = []
    ∧ ∀ (c : Point) (facets : List (List Point)),
        tetraInputs c (f :: facets) = tetraInputs c facets := by
  have ht : triangulate f = [] := triangulate_nil_of_short f hf
  exact ⟨ht, fun c facets => by simp [tetraInputs, ht]⟩

/-- Witness for C9: a 2-vertex facet yields no triangles and adds no tetra
inputs. -/
theorem triangulate_small_no_error_witness :
    triangulate ([[0,0,0],[1,1,1]] : List Point) = []
    ∧ tetraInputs [2,2,2] [[[0,0,0],[1,1,1]]] = tetraInputs [2,2,2] [] := by
  have h := triangulate_small_no_error [[0,0,0],[1,1,1]] (by norm_num)
  exact ⟨h.1, h.2 [2,2,2] []⟩

/-- Counterexample to C3 as stated: a facet set containing a facet with fewer
than 3 vertices does not fail; it returns the number 0. -/
theorem get_volume_small_facet_counterexample :
    get_volume [[[0,0,0],[1,0,0]]] = some 0 := by
  norm_num [get_volume, triangulate, fan, tetraInputs, tetraSum]

/-- C3 amended: get_volume fails on an empty facet set, and on any facet set
containing a facet with at least 3 vertices one of whose points is not
3-dimensional; but a facet with fewer than 3 vertices never itself causes a
failure: a non-empty facet set (with the uniform row widths np.concatenate
needs) whose facets all have fewer than 3 vertices returns the number 0. -/
theorem get_volume_invalid_amended (facets : List (List Point)) :
    (facets = [] → get_volume facets = none)
    ∧ ((∃ f ∈ facets, 3 ≤ f.length ∧ ∃ p ∈ f, p.length ≠ 3) → get_volume facets = none)
    ∧ (facets ≠ [] → (∀ p ∈ facets.flatten, p.length = (facets.flatten.headD []).length) →
        (∀ f ∈ facets, f.length < 3) → get_volume facets = some 0) := by
  refine ⟨?_, ?_, ?_⟩
  · rintro rfl; rfl
  · rintro ⟨f, hf, hflen, p, hpf, hp3⟩
    cases facets with
    | nil => simp at hf
    | cons g gs =>
      simp only [get_volume]
      by_cases hw : ∀ q ∈ (g :: gs).flatten, q.length = ((g :: gs).flatten.headD []).length
      · rw [if_pos hw]
        obtain ⟨q0, q1, q2, qr, rfl⟩ : ∃ q0 q1 q2 qr, f = q0 :: q1 :: q2 :: qr := by
          rcases f with _ | ⟨x, _ | ⟨y, _ | ⟨z, r⟩⟩⟩
          · simp at hflen
          · simp at hflen
          · simp at hflen
          · exact ⟨x, y, z, r, rfl⟩
        apply tetraSum_none_of_mem _
          [get_centroid (g :: gs).flatten.dedup, q0, q1, q2]
        · apply List.mem_flatten.mpr
          refine ⟨(triangulate (q0 :: q1 :: q2 :: qr)).map
              (fun t => [get_centroid (g :: gs).flatten.dedup, t.1, t.2.1, t.2.2]),
            List.mem_map_of_mem _ hf, ?_⟩
          simp [triangulate, fan]
        · rw [get_volume_tetra, if_neg]
          rintro ⟨-, hall⟩
          have hq0 : q0 ∈ (g :: gs).flatten := List.mem_flatten.mpr ⟨_, hf, by simp⟩
          have hp : p ∈ (g :: gs).flatten := List.mem_flatten.mpr ⟨_, hf, hpf⟩
          have h1 := hw q0 hq0
          have h2 := hw p hp
          have h3 := hall q0 (by simp)
          exact hp3 (by rw [h2, ← h1]; exact h3)
      · rw [if_neg hw]
  · intro hne hw hsmall
    cases facets with
    | nil => exact absurd rfl hne
    | cons g gs =>
      simp only [get_volume]
      rw [if_pos hw]
      have hti : tetraInputs (get_centroid (g :: gs).flatten.dedup) (g :: gs) = [] := by
        apply List.flatten_eq_nil_iff.mpr
        intro l hl
        obtain ⟨f, hf, rfl⟩ := List.mem_map.mp hl
        rw [triangulate_nil_of_short f (hsmall f hf)]
        rfl
      rw [hti]
      rfl

/-- Witness for C3 amended: the empty set fails, a 2D triangle facet fails, a
single 1-point 3D facet returns 0. -/
theorem get_volume_invalid_amended_witness :
    get_volume [] = none
    ∧ get_volume [[[0,0],[1,0],[0,1]]] = none
    ∧ get_volume [[[5,5,5]]] = some 0 := by
  refine ⟨(get_volume_invalid_amended []).1 rfl, ?_, ?_⟩
  · exact (get_volume_invalid_amended _).2.1
      ⟨[[0,0],[1,0],[0,1]], by simp, by norm_num, [0,0], by simp, by norm_num⟩
  · exact (get_volume_invalid_amended _).2.2 (by simp) (by norm_num) (by norm_num)

/-- Unsigned sixth of a quarter is an unsigned twenty-fourth. -/
theorem abs_quarter_div (X Y : ℚ) (h : X = Y/4) : |X|/6 = |Y|/24 := by
  subst h
  rw [abs_div]
  norm_num
  ring

/-- A tetra with the vertex centroid as apex over face (0,2,1) has a
quarter of the volume of the full tetrahedron. -/
theorem tetra_apex_vol_1 (x0 y0 z0 x1 y1 z1 x2 y2 z2 x3 y3 z3 : ℚ) :
    get_volume_tetra [[(x0+x1+x2+x3)/4, (y0+y1+y2+y3)/4, (z0+z1+z2+z3)/4], [x0,y0,z0], [x2,y2,z2], [x1,y1,z1]]
      = some (|det3 (x1-x0) (y1-y0) (z1-z0) (x2-x0) (y2-y0) (z2-z0) (x3-x0) (y3-y0) (z3-z0)| / 24) := by
  rw [get_volume_tetra, if_pos (by norm_num)]
  rw [Option.some.injEq]
  apply abs_quarter_div
  norm_num [coordD, det3]
  ring

/-- A tetra with the vertex centroid as apex over face (0,1,3) has a
quarter of the volume of the full tetrahedron. -/
theorem tetra_apex_vol_2 (x0 y0 z0 x1 y1 z1 x2 y2 z2 x3 y3 z3 : ℚ) :
    get_volume_tetra [[(x0+x1+x2+x3)/4, (y0+y1+y2+y3)/4, (z0+z1+z2+z3)/4], [x0,y0,z0], [x1,y1,z1], [x3,y3,z3]]
      = some (|det3 (x1-x0) (y1-y0) (z1-z0) (x2-x0) (y2-y0) (z2-z0) (x3-x0) (y3-y0) (z3-z0)| / 24) := by
  rw [get_volume_tetra, if_pos (by norm_num)]
  rw [Option.some.injEq]
  apply abs_quarter_div
  norm_num [coordD, det3]
  ring

/-- A tetra with the vertex centroid as apex over face (1,2,3) has a
quarter of the volume of the full tetrahedron. -/
theorem tetra_apex_vol_3 (x0 y0 z0 x1 y1 z1 x2 y2 z2 x3 y3 z3 : ℚ) :
    get_volume_tetra [[(x0+x1+x2+x3)/4, (y0+y1+y2+y3)/4, (z0+z1+z2+z3)/4], [x1,y1,z1], [x2,y2,z2], [x3,y3,z3]]
      = some (|det3 (x1-x0) (y1-y0) (z1-z0) (x2-x0) (y2-y0) (z2-z0) (x3-x0) (y3-y0) (z3-z0)| / 24) := by
  rw [get_volume_tetra, if_pos (by norm_num)]
  rw [Option.some.injEq]
  apply abs_quarter_div
  norm_num [coordD, det3]
  ring

/-- A tetra with the vertex centroid as apex over face (0,3,2) has a
quarter of the volume of the full tetrahedron. -/
theorem tetra_apex_vol_4 (x0 y0 z0 x1 y1 z1 x2 y2 z2 x3 y3 z3 : ℚ) :
    get_volume_tetra [[(x0+x1+x2+x3)/4, (y0+y1+y2+y3)/4, (z0+z1+z2+z3)/4], [x0,y0,z0], [x3,y3,z3], [x2,y2,z2]]
      = some (|det3 (x1-x0) (y1-y0) (z1-z0) (x2-x0) (y2-y0) (z2-z0) (x3-x0) (y3-y0) (z3-z0)| / 24) := by
  rw [get_volume_tetra, if_pos (by norm_num)]
  rw [Option.some.injEq]
  apply abs_quarter_div
  norm_num [coordD, det3]
  ring

/-- On the four outward-wound triangular facets of any tetrahedron with
pairwise distinct vertices, the centroid-fan volume equals the simplex
volume of the tetrahedron itself (the exact enclosed volume). -/
theorem tetra_facets_volume (x0 y0 z0 x1 y1 z1 x2 y2 z2 x3 y3 z3 : ℚ)
    (h01 : ([x0,y0,z0] : Point) ≠ [x1,y1,z1]) (h02 : ([x0,y0,z0] : Point) ≠ [x2,y2,z2])
    (h03 : ([x0,y0,z0] : Point) ≠ [x3,y3,z3]) (h12 : ([x1,y1,z1] : Point) ≠ [x2,y2,z2])
    (h13 : ([x1,y1,z1] : Point) ≠ [x3,y3,z3]) (h23 : ([x2,y2,z2] : Point) ≠ [x3,y3,z3]) :
    get_volume [[[x0,y0,z0],[x2,y2,z2],[x1,y1,z1]], [[x0,y0,z0],[x1,y1,z1],[x3,y3,z3]], [[x1,y1,z1],[x2,y2,z2],[x3,y3,z3]], [[x0,y0,z0],[x3,y3,z3],[x2,y2,z2]]]
      = get_volume_tetra [[x0,y0,z0], [x1,y1,z1], [x2,y2,z2], [x3,y3,z3]] := by
  have h01a : ¬(x0 = x1 ∧ y0 = y1 ∧ z0 = z1) := by simpa using h01
  have h02a : ¬(x0 = x2 ∧ y0 = y2 ∧ z0 = z2) := by simpa using h02
  have h03a : ¬(x0 = x3 ∧ y0 = y3 ∧ z0 = z3) := by simpa using h03
  have h12a : ¬(x1 = x2 ∧ y1 = y2 ∧ z1 = z2) := by simpa using h12
  have h13a : ¬(x1 = x3 ∧ y1 = y3 ∧ z1 = z3) := by simpa using h13
  have h23a : ¬(x2 = x3 ∧ y2 = y3 ∧ z2 = z3) := by simpa using h23
  have h10a : ¬(x1 = x0 ∧ y1 = y0 ∧ z1 = z0) := by simpa using h01.symm
  have h20a : ¬(x2 = x0 ∧ y2 = y0 ∧ z2 = z0) := by simpa using h02.symm
  have h30a : ¬(x3 = x0 ∧ y3 = y0 ∧ z3 = z0) := by simpa using h03.symm
  have h21a : ¬(x2 = x1 ∧ y2 = y1 ∧ z2 = z1) := by simpa using h12.symm
  have h31a : ¬(x3 = x1 ∧ y3 = y1 ∧ z3 = z1) := by simpa using h13.symm
  have h32a : ¬(x3 = x2 ∧ y3 = y2 ∧ z3 = z2) := by simpa using h23.symm
  have hd : ([[[x0,y0,z0],[x2,y2,z2],[x1,y1,z1]], [[x0,y0,z0],[x1,y1,z1],[x3,y3,z3]], [[x1,y1,z1],[x2,y2,z2],[x3,y3,z3]], [[x0,y0,z0],[x3,y3,z3],[x2,y2,z2]]] : List (List Point)).flatten.dedup
      = [[x1,y1,z1], [x0,y0,z0], [x3,y3,z3], [x2,y2,z2]] := by
    simp [List.dedup_cons_of_mem, List.dedup_cons_of_not_mem,
      h01a, h02a, h03a, h12a, h13a, h23a,
      h10a, h20a, h30a, h21a, h31a, h32a]
  have hc : get_centroid [[x1,y1,z1], [x0,y0,z0], [x3,y3,z3], [x2,y2,z2]]
      = ([(x0+x1+x2+x3)/4, (y0+y1+y2+y3)/4, (z0+z1+z2+z3)/4] : Point) := by
    norm_num [get_centroid, vadd]
    refine ⟨by ring, by ring, by ring⟩
  have hrhs : get_volume_tetra [[x0,y0,z0], [x1,y1,z1], [x2,y2,z2], [x3,y3,z3]]
      = some (|det3 (x1-x0) (y1-y0) (z1-z0) (x2-x0) (y2-y0) (z2-z0) (x3-x0) (y3-y0) (z3-z0)| / 6) := by
    rw [get_volume_tetra, if_pos (by norm_num)]
    norm_num [coordD]
  rw [hrhs]
  simp only [get_volume]
  rw [if_pos (by norm_num), hd, hc]
  show tetraSum [[[(x0+x1+x2+x3)/4, (y0+y1+y2+y3)/4, (z0+z1+z2+z3)/4], [x0,y0,z0], [x2,y2,z2], [x1,y1,z1]], [[(x0+x1+x2+x3)/4, (y0+y1+y2+y3)/4, (z0+z1+z2+z3)/4], [x0,y0,z0], [x1,y1,z1], [x3,y3,z3]], [[(x0+x1+x2+x3)/4, (y0+y1+y2+y3)/4, (z0+z1+z2+z3)/4], [x1,y1,z1], [x2,y2,z2], [x3,y3,z3]], [[(x0+x1+x2+x3)/4, (y0+y1+y2+y3)/4, (z0+z1+z2+z3)/4], [x0,y0,z0], [x3,y3,z3], [x2,y2,z2]]] = _
  simp only [tetraSum, List.foldl]
  rw [tetra_apex_vol_1 x0 y0 z0 x1 y1 z1 x2 y2 z2 x3 y3 z3,
    tetra_apex_vol_2 x0 y0 z0 x1 y1 z1 x2 y2 z2 x3 y3 z3,
    tetra_apex_vol_3 x0 y0 z0 x1 y1 z1 x2 y2 z2 x3 y3 z3,
    tetra_apex_vol_4 x0 y0 z0 x1 y1 z1 x2 y2 z2 x3 y3 z3]
  simp
  ring

/-- C1: get_volume on the 6 outward-wound unit-square facets of the unit cube
returns exactly 1; and for correctly wound gap-free facet sets the centroid-fan
sum is the exact enclosed volume, here verified on the family of all
tetrahedra with pairwise distinct vertices given as 4 outward-wound facets. -/
theorem get_volume_unit_cube_exact :
    get_volume cubeFacets = some 1
    ∧ ∀ x0 y0 z0 x1 y1 z1 x2 y2 z2 x3 y3 z3 : ℚ,
      ([x0,y0,z0] : Point) ≠ [x1,y1,z1] → ([x0,y0,z0] : Point) ≠ [x2,y2,z2] →
      ([x0,y0,z0] : Point) ≠ [x3,y3,z3] → ([x1,y1,z1] : Point) ≠ [x2,y2,z2] →
      ([x1,y1,z1] : Point) ≠ [x3,y3,z3] → ([x2,y2,z2] : Point) ≠ [x3,y3,z3] →
      get_volume [[[x0,y0,z0],[x2,y2,z2],[x1,y1,z1]], [[x0,y0,z0],[x1,y1,z1],[x3,y3,z3]], [[x1,y1,z1],[x2,y2,z2],[x3,y3,z3]], [[x0,y0,z0],[x3,y3,z3],[x2,y2,z2]]]
        = get_volume_tetra [[x0,y0,z0], [x1,y1,z1], [x2,y2,z2], [x3,y3,z3]] := by
  constructor
  · have hd : cubeFacets.flatten.dedup =
        [[1,0,0],[1,0,1],[1,1,0],[1,1,1],[0,1,0],[0,0,0],[0,0,1],[0,1,1]] := by decide
    have hc : get_centroid cubeFacets.flatten.dedup = [1/2, 1/2, 1/2] := by
      rw [hd]; norm_num [get_centroid, vadd]
    rw [show get_volume cubeFacets
        = tetraSum (tetraInputs (get_centroid cubeFacets.flatten.dedup) cubeFacets) from by
      norm_num [get_volume, cubeFacets]]
    rw [hc]
    norm_num [cubeFacets, tetraSum, tetraInputs, triangulate, fan, get_volume_tetra, det3,
      coordD]
    rw [abs_of_pos (by norm_num : (0:ℚ) < 1/2)]
    norm_num
  · exact tetra_facets_volume

/-- Witness for C1: the facet form of the unit right tetrahedron has the same
volume as its simplex form. -/
theorem get_volume_unit_cube_exact_witness :
    get_volume [[[0,0,0],[0,1,0],[1,0,0]], [[0,0,0],[1,0,0],[0,0,1]],
        [[1,0,0],[0,1,0],[0,0,1]], [[0,0,0],[0,0,1],[0,1,0]]]
      = get_volume_tetra [[0,0,0],[1,0,0],[0,1,0],[0,0,1]] :=
  get_volume_unit_cube_exact.2 0 0 0 1 0 0 0 1 0 0 0 1
    (by norm_num) (by norm_num) (by norm_num) (by norm_num) (by norm_num) (by norm_num)


/-- Translating all four points leaves the tetra volume unchanged: only
coordinate differences enter the determinant. -/
theorem get_volume_tetra_translate (t0 t1 t2 a0 a1 a2 b0 b1 b2 c0 c1 c2 d0 d1 d2 : ℚ) :
    get_volume_tetra [[a0+t0, a1+t1, a2+t2], [b0+t0, b1+t1, b2+t2], [c0+t0, c1+t1, c2+t2], [d0+t0, d1+t1, d2+t2]] = get_volume_tetra [[a0, a1, a2], [b0, b1, b2], [c0, c1, c2], [d0, d1, d2]] := by
  simp only [get_volume_tetra]
  rw [if_pos (by norm_num), if_pos (by norm_num), Option.some.injEq]
  norm_num [coordD]

/-- C10: get_volume_tetra and get_volume_hexa are translation-invariant:
adding the same vector t to every vertex leaves the volume unchanged. -/
theorem volume_translation_invariant (t0 t1 t2 a0 a1 a2 b0 b1 b2 c0 c1 c2 d0 d1 d2 x0 y0 z0 x1 y1 z1 x2 y2 z2 x3 y3 z3 x4 y4 z4 x5 y5 z5 x6 y6 z6 x7 y7 z7 : ℚ) :
    get_volume_tetra [[a0+t0, a1+t1, a2+t2], [b0+t0, b1+t1, b2+t2], [c0+t0, c1+t1, c2+t2], [d0+t0, d1+t1, d2+t2]] = get_volume_tetra [[a0, a1, a2], [b0, b1, b2], [c0, c1, c2], [d0, d1, d2]]
    ∧ get_volume_hexa [[x0+t0, y0+t1, z0+t2], [x1+t0, y1+t1, z1+t2], [x2+t0, y2+t1, z2+t2], [x3+t0, y3+t1, z3+t2], [x4+t0, y4+t1, z4+t2], [x5+t0, y5+t1, z5+t2], [x6+t0, y6+t1, z6+t2], [x7+t0, y7+t1, z7+t2]]
      = get_volume_hexa [[x0, y0, z0], [x1, y1, z1], [x2, y2, z2], [x3, y3, z3], [x4, y4, z4], [x5, y5, z5], [x6, y6, z6], [x7, y7, z7]] := by
  refine ⟨get_volume_tetra_translate t0 t1 t2 a0 a1 a2 b0 b1 b2 c0 c1 c2 d0 d1 d2, ?_⟩
  simp only [get_volume_hexa]
  rw [if_pos (by norm_num), if_pos (by norm_num)]
  simp only [tetra_indice, List.map_cons, List.map_nil, List.getD_cons_zero,
    List.getD_cons_succ]
  simp only [tetraSum, List.foldl]
  simp only [get_volume_tetra_translate]


/-- The cyclic zipWith sum along a rotated list equals the path walk. -/
theorem zip_aux (l : List Pt2) : ∀ (prev first : Pt2),
    (List.zipWith crossD (prev :: l) (l ++ [first])).sum = sAux first prev l := by
  induction l with
  | nil => intro prev first; simp [sAux]
  | cons x xs ih => intro prev first; simp [sAux, ih]

/-- The shoelace sum is the path walk anchored at the head vertex. -/
theorem shoelace_cons (p0 : Pt2) (l : List Pt2) : shoelace (p0 :: l) = sAux p0 p0 l := by
  rw [shoelace, roll1]
  simp only [List.drop_succ_cons, List.drop_zero, List.take_succ_cons, List.take_zero]
  exact zip_aux l p0 p0

/-- The shoelace sum of a triangle boundary is its signed double area. -/
theorem shoelace_triple (o a b : Pt2) : shoelace [o, a, b] = triArea2 o a b := by
  rw [shoelace_cons]
  simp [sAux, triArea2]
  ring

/-- The path walk telescopes into the fan of signed triangle double areas. -/
theorem sAux_fan (p0 : Pt2) : ∀ (l : List Pt2) (a : Pt2),
    sAux p0 a l = ((fan p0 (a :: l)).map (fun t => triArea2 t.1 t.2.1 t.2.2)).sum
      + crossD a p0 := by
  intro l
  induction l with
  | nil => intro a; simp [sAux, fan]
  | cons b r ih =>
    intro a
    rw [sAux, ih b]
    simp only [fan, List.map_cons, List.sum_cons]
    simp only [triArea2, crossD]
    ring

/-- The polygon shoelace sum equals the sum of its fan triangle shoelaces. -/
theorem shoelace_fan (p0 a : Pt2) (l : List Pt2) :
    shoelace (p0 :: a :: l)
      = ((fan p0 (a :: l)).map (fun t => triArea2 t.1 t.2.1 t.2.2)).sum := by
  rw [shoelace_cons, sAux, sAux_fan p0 l a]
  simp only [crossD]
  ring



/-- Every fan triangle is anchored at p0 with two consecutive tail vertices. -/
theorem fan_mem_shape (p0 : Pt2) : ∀ (l : List Pt2) (t : Pt2 × Pt2 × Pt2), t ∈ fan p0 l →
    ∃ j a b, t = (p0, a, b) ∧ l[j]? = some a ∧ l[j+1]? = some b := by
  intro l
  induction l with
  | nil => intro t ht; simp [fan] at ht
  | cons a tl ih =>
    intro t ht
    cases tl with
    | nil => simp [fan] at ht
    | cons b r =>
      rw [fan] at ht
      rcases List.mem_cons.mp ht with rfl | ht2
      · exact ⟨0, a, b, rfl, by simp, by simp⟩
      · obtain ⟨j, x, y, rfl, hx, hy⟩ := ih t ht2
        exact ⟨j+1, x, y, rfl, by simpa using hx, by simpa using hy⟩

/-- C8: for a convex polygon with at least 3 counter-clockwise vertices (every
ordered vertex triple in counter-clockwise position), the sum of get_area over
the fan triangles equals get_area of the polygon itself. -/
theorem triangulate_area_roundtrip (pts : List Pt2) (h3 : 3 ≤ pts.length)
    (hconvex : ∀ i j k : ℕ, i < j → j < k → k < pts.length →
      0 ≤ triArea2 (pts.getD i (0,0)) (pts.getD j (0,0)) (pts.getD k (0,0))) :
    ((triangulate pts).map (fun t => get_area [t.1, t.2.1, t.2.2])).sum
      = get_area pts := by
  obtain ⟨p0, a, l, rfl⟩ : ∃ p0 a l, pts = p0 :: a :: l := by
    rcases pts with _ | ⟨p0, _ | ⟨a, l⟩⟩
    · norm_num at h3
    · norm_num at h3
    · exact ⟨p0, a, l, rfl⟩
  have htri : ∀ t ∈ fan p0 (a :: l), 0 ≤ triArea2 t.1 t.2.1 t.2.2 := by
    intro t ht
    obtain ⟨j, x, y, rfl, hx, hy⟩ := fan_mem_shape p0 (a :: l) t ht
    have hjb : j + 1 < (a :: l).length := (List.getElem?_eq_some_iff.mp hy).1
    simp only [List.length_cons] at hjb
    have h0 := hconvex 0 (j+1) (j+2) (by omega) (by omega)
      (by simp only [List.length_cons]; omega)
    have e2 : (p0 :: a :: l).getD (j+1) (0,0) = x := by
      rw [List.getD_cons_succ, List.getD_eq_getElem?_getD, hx]; rfl
    have e3 : (p0 :: a :: l).getD (j+2) (0,0) = y := by
      rw [List.getD_cons_succ, List.getD_eq_getElem?_getD, hy]; rfl
    rw [e2, e3] at h0
    exact h0
  show ((fan p0 (a :: l)).map (fun t => get_area [t.1, t.2.1, t.2.2])).sum = _
  have hmap : ((fan p0 (a :: l)).map (fun t => get_area [t.1, t.2.1, t.2.2]))
      = ((fan p0 (a :: l)).map (fun t => triArea2 t.1 t.2.1 t.2.2 / 2)) := by
    apply List.map_congr_left
    intro t ht
    rw [get_area, shoelace_triple, abs_of_nonneg (htri t ht)]
  rw [hmap]
  have hsum2 : ∀ (L : List (Pt2 × Pt2 × Pt2)),
      (L.map (fun t => triArea2 t.1 t.2.1 t.2.2 / 2)).sum
        = (L.map (fun t => triArea2 t.1 t.2.1 t.2.2)).sum / 2 := by
    intro L
    induction L with
    | nil => simp
    | cons t ts ih => simp [ih]; ring
  rw [hsum2]
  rw [get_area, shoelace_fan p0 a l, abs_of_nonneg]
  apply List.sum_nonneg
  intro x hx
  obtain ⟨t, ht, rfl⟩ := List.mem_map.mp hx
  exact htri t ht


/-- Witness for C8: the unit square splits into two triangles of area 1/2. -/
theorem triangulate_area_roundtrip_witness :
    ((triangulate [((0:ℚ),(0:ℚ)), (1,0), (1,1), (0,1)]).map
        (fun t => get_area [t.1, t.2.1, t.2.2])).sum
      = get_area [((0:ℚ),(0:ℚ)), (1,0), (1,1), (0,1)] :=
  triangulate_area_roundtrip [((0:ℚ),(0:ℚ)), (1,0), (1,1), (0,1)] (by norm_num)
    (by
      intro i j k hij hjk hk
      simp only [List.length_cons, List.length_nil] at hk
      interval_cases k <;> interval_cases j <;> interval_cases i <;>
        norm_num [triArea2, crossD])

/-- The 3x3 determinant is homogeneous of degree 3. -/
theorem det3_smul (s a b c d e f g h i : ℚ) :
    det3 (s*a) (s*b) (s*c) (s*d) (s*e) (s*f) (s*g) (s*h) (s*i)
      = s^3 * det3 a b c d e f g h i := by
  simp only [det3]
  ring

/-- Row lookup commutes with scaling every row. -/
theorem getD_point_map_smul (s : ℚ) (l : List Point) (i : ℕ) :
    (l.map (fun p => p.map (fun x => s * x))).getD i []
      = (l.getD i []).map (fun x => s * x) := by
  induction l generalizing i with
  | nil => simp
  | cons p t ih =>
    cases i with
    | zero => simp
    | succ n => simpa using ih n

/-- Coordinate lookup commutes with scaling (the default 0 scales to 0). -/
theorem getD_coord_map_smul (s : ℚ) (p : Point) (j : ℕ) :
    (p.map (fun x => s * x)).getD j 0 = s * p.getD j 0 := by
  induction p generalizing j with
  | nil => simp
  | cons x t ih =>
    cases j with
    | zero => simp
    | succ n => simpa using ih n

/-- Scaling every coordinate by s scales the tetra volume by |s|^3 (shape
failures are preserved). -/
theorem get_volume_tetra_smul (s : ℚ) (pts : List Point) :
    get_volume_tetra (pts.map (fun p => p.map (fun x => s * x)))
      = (get_volume_tetra pts).map (fun v => |s|^3 * v) := by
  by_cases h : pts.length = 4 ∧ ∀ p ∈ pts, p.length = 3
  · have h2 : (pts.map (fun p => p.map (fun x => s * x))).length = 4
        ∧ ∀ p ∈ pts.map (fun p => p.map (fun x => s * x)), p.length = 3 := by
      refine ⟨by simpa using h.1, ?_⟩
      intro p hp
      obtain ⟨q, hq, rfl⟩ := List.mem_map.mp hp
      simpa using h.2 q hq
    rw [get_volume_tetra, if_pos h2, get_volume_tetra, if_pos h]
    simp only [coordD, getD_point_map_smul, getD_coord_map_smul, Option.map_some']
    simp only [← mul_sub]
    rw [det3_smul, abs_mul, abs_pow, Option.some.injEq]
    ring
  · have h2 : ¬ ((pts.map (fun p => p.map (fun x => s * x))).length = 4
        ∧ ∀ p ∈ pts.map (fun p => p.map (fun x => s * x)), p.length = 3) := by
      intro hc
      apply h
      refine ⟨by simpa using hc.1, ?_⟩
      intro p hp
      have := hc.2 (p.map (fun x => s * x)) (List.mem_map_of_mem _ hp)
      simpa using this
    rw [get_volume_tetra, if_neg h2, get_volume_tetra, if_neg h]
    rfl



/-- The fold of the accumulation scales term by term. -/
theorem tetraSum_smul_go (s : ℚ) (ts : List (List Point)) : ∀ (a : ℚ),
    (ts.map (fun t => t.map (fun p => p.map (fun x => s * x)))).foldl
        (fun acc t => acc.bind (fun a => (get_volume_tetra t).map (fun v => a + v)))
        (some (|s|^3 * a))
      = Option.map (fun v => |s|^3 * v)
          (ts.foldl
            (fun acc t => acc.bind (fun a => (get_volume_tetra t).map (fun v => a + v)))
            (some a)) := by
  induction ts with
  | nil => intro a; simp
  | cons t ts ih =>
    intro a
    simp only [List.map_cons, List.foldl_cons, Option.some_bind]
    rw [get_volume_tetra_smul s t]
    cases hgt : get_volume_tetra t with
    | none => simp [tetraSum_go_none]
    | some v =>
      simp only [Option.map_some']
      rw [show |s|^3 * a + |s|^3 * v = |s|^3 * (a + v) from by ring]
      exact ih (a + v)

/-- The tetra-volume accumulation scales by |s|^3. -/
theorem tetraSum_smul (s : ℚ) (ts : List (List Point)) :
    tetraSum (ts.map (fun t => t.map (fun p => p.map (fun x => s * x))))
      = Option.map (fun v => |s|^3 * v) (tetraSum ts) := by
  unfold tetraSum
  have := tetraSum_smul_go s ts 0
  simpa using this



/-- Row addition commutes with scaling. -/
theorem vadd_map_smul (s : ℚ) : ∀ (a b : Point),
    vadd (a.map (fun x => s * x)) (b.map (fun x => s * x))
      = (vadd a b).map (fun x => s * x) := by
  intro a
  induction a with
  | nil => intro b; simp [vadd]
  | cons x t ih =>
    intro b
    cases b with
    | nil => simp [vadd]
    | cons y u => simp [vadd, mul_add] at ih ⊢; exact ih u

/-- Summing rows commutes with scaling. -/
theorem foldl_vadd_smul (s : ℚ) : ∀ (l : List Point) (acc : Point),
    (l.map (fun p => p.map (fun x => s * x))).foldl vadd (acc.map (fun x => s * x))
      = (l.foldl vadd acc).map (fun x => s * x) := by
  intro l
  induction l with
  | nil => intro acc; simp
  | cons q t ih =>
    intro acc
    simp only [List.map_cons, List.foldl_cons]
    rw [vadd_map_smul, ih]

/-- The centroid of scaled rows is the scaled centroid. -/
theorem get_centroid_map_smul (s : ℚ) (l : List Point) :
    get_centroid (l.map (fun p => p.map (fun x => s * x)))
      = (get_centroid l).map (fun x => s * x) := by
  cases l with
  | nil => simp [get_centroid]
  | cons p rest =>
    simp only [List.map_cons, get_centroid, foldl_vadd_smul, List.length_map]
    rw [List.map_map, List.map_map]
    apply List.map_congr_left
    intro x hx
    simp [Function.comp]
    ring

/-- Scaling a row by 0 yields the zero row of the same width. -/
theorem map_zero_mul (p : Point) :
    p.map (fun x => (0:ℚ) * x) = List.replicate p.length 0 := by
  induction p with
  | nil => rfl
  | cons x t ih => simp [ih, List.replicate_succ]

/-- Summing rows of equal width keeps the width. -/
theorem foldl_vadd_length : ∀ (l : List Point) (acc : Point),
    (∀ p ∈ l, p.length = acc.length) → (l.foldl vadd acc).length = acc.length := by
  intro l
  induction l with
  | nil => intro acc _; rfl
  | cons q t ih =>
    intro acc hl
    simp only [List.foldl_cons]
    have hq : q.length = acc.length := hl q (by simp)
    have hv : (vadd acc q).length = acc.length := by
      simp [vadd, hq]
    rw [ih (vadd acc q) (by intro p hp; rw [hv]; exact hl p (by simp [hp])), hv]

/-- The centroid of a non-empty set of width-w rows has width w. -/
theorem get_centroid_length (l : List Point) (w : ℕ) (hne : l ≠ [])
    (hw : ∀ p ∈ l, p.length = w) : (get_centroid l).length = w := by
  cases l with
  | nil => exact absurd rfl hne
  | cons p rest =>
    simp only [get_centroid, List.length_map]
    rw [foldl_vadd_length]
    · exact hw p (by simp)
    · intro q hq
      rw [hw q (by simp [hq]), hw p (by simp)]

/-- Deduplicating a constant non-empty list leaves one element. -/
theorem dedup_replicate_one (c : Point) : ∀ (n : ℕ), (List.replicate (n+1) c).dedup = [c] := by
  intro n
  induction n with
  | zero => simp
  | succ m ih =>
    rw [List.replicate_succ, List.dedup_cons_of_mem (by simp)]
    exact ih



/-- The centroid of the deduplicated scaled rows is the scaled centroid of the
deduplicated rows; scaling by 0 collapses duplicates but both sides are then
the zero row. -/
theorem get_centroid_dedup_smul (s : ℚ) (l : List Point) (w : ℕ)
    (hw : ∀ p ∈ l, p.length = w) :
    get_centroid ((l.map (fun p => p.map (fun x => s * x))).dedup)
      = (get_centroid l.dedup).map (fun x => s * x) := by
  by_cases hs : s = 0
  · subst hs
    cases l with
    | nil => simp [get_centroid]
    | cons p rest =>
      have hmap : (p :: rest).map (fun q => q.map (fun x => (0:ℚ) * x))
          = List.replicate ((p :: rest).length) (List.replicate w 0) := by
        apply List.eq_replicate_iff.mpr
        refine ⟨by simp, ?_⟩
        intro b hb
        obtain ⟨q, hq, rfl⟩ := List.mem_map.mp hb
        rw [map_zero_mul, hw q hq]
      rw [hmap, List.length_cons, dedup_replicate_one]
      have hL : get_centroid [List.replicate w 0] = List.replicate w 0 := by
        simp [get_centroid]
      rw [hL, map_zero_mul, get_centroid_length ((p :: rest).dedup) w
        (fun hq => absurd ((List.dedup_eq_nil _).mp hq) (by simp))
        (fun q hq => hw q (List.mem_dedup.mp hq))]
  · rw [List.dedup_map_of_injective (List.map_injective_iff.mpr (mul_right_injective₀ hs)),
      get_centroid_map_smul]



/-- Scaling every coordinate by s scales the hexa volume by |s|^3. -/
theorem get_volume_hexa_smul (s : ℚ) (pts : List Point) :
    get_volume_hexa (pts.map (fun p => p.map (fun x => s * x)))
      = (get_volume_hexa pts).map (fun v => |s|^3 * v) := by
  by_cases h : pts.length = 8 ∧ ∀ p ∈ pts, p.length = 3
  · have h2 : (pts.map (fun p => p.map (fun x => s * x))).length = 8
        ∧ ∀ p ∈ pts.map (fun p => p.map (fun x => s * x)), p.length = 3 := by
      refine ⟨by simpa using h.1, ?_⟩
      intro p hp
      obtain ⟨q, hq, rfl⟩ := List.mem_map.mp hp
      simpa using h.2 q hq
    rw [get_volume_hexa, if_pos h2, get_volume_hexa, if_pos h]
    have hmaps : tetra_indice.map (fun g => g.map (fun i =>
          (pts.map (fun p => p.map (fun x => s * x))).getD i []))
        = (tetra_indice.map (fun g => g.map (fun i => pts.getD i []))).map
            (fun t => t.map (fun p => p.map (fun x => s * x))) := by
      simp only [List.map_map]
      apply List.map_congr_left
      intro g hg
      simp only [List.map_map, Function.comp]
      apply List.map_congr_left
      intro i hi
      rw [getD_point_map_smul]
      rfl
    rw [hmaps, tetraSum_smul]
  · have h2 : ¬ ((pts.map (fun p => p.map (fun x => s * x))).length = 8
        ∧ ∀ p ∈ pts.map (fun p => p.map (fun x => s * x)), p.length = 3) := by
      intro hc
      apply h
      refine ⟨by simpa using hc.1, ?_⟩
      intro p hp
      have := hc.2 (p.map (fun x => s * x)) (List.mem_map_of_mem _ hp)
      simpa using this
    rw [get_volume_hexa, if_neg h2, get_volume_hexa, if_neg h]
    rfl

/-- The fan commutes with mapping a function over the vertices. -/
theorem fan_map_triples (F : Point → Point) (p0 : Point) : ∀ l : List Point,
    fan (F p0) (l.map F) = (fan p0 l).map (fun t => (F t.1, F t.2.1, F t.2.2)) := by
  intro l
  induction l with
  | nil => simp [fan]
  | cons a t ih =>
    cases t with
    | nil => simp [fan]
    | cons b r =>
      simp only [List.map_cons] at ih ⊢
      rw [fan, fan, List.map_cons]
      rw [show fan (F p0) (F b :: List.map F r) = (fan p0 (b :: r)).map
        (fun t => (F t.1, F t.2.1, F t.2.2)) from ih]

/-- Triangulation commutes with mapping a function over the vertices. -/
theorem triangulate_map_triples (F : Point → Point) (f : List Point) :
    triangulate (f.map F) = (triangulate f).map (fun t => (F t.1, F t.2.1, F t.2.2)) := by
  cases f with
  | nil => rfl
  | cons p0 rest =>
    simp only [List.map_cons, triangulate]
    exact fan_map_triples F p0 rest

/-- The centroid-fan tetra inputs of the scaled facets are the scaled tetra
inputs. -/
theorem tetraInputs_smul (s : ℚ) (c : Point) (facets : List (List Point)) :
    tetraInputs (c.map (fun x => s * x))
        (facets.map (fun f => f.map (fun p => p.map (fun x => s * x))))
      = (tetraInputs c facets).map (fun t => t.map (fun p => p.map (fun x => s * x))) := by
  induction facets with
  | nil => rfl
  | cons f fs ih =>
    simp only [tetraInputs, List.map_cons, List.flatten_cons, List.map_append] at ih ⊢
    rw [triangulate_map_triples (fun p => p.map (fun x => s * x)) f, ih]
    simp [List.map_map, Function.comp]

/-- The uniform-row-width check is invariant under scaling. -/
theorem width_guard_smul (s : ℚ) (l : List Point) :
    (∀ p ∈ l.map (fun q => q.map (fun x => s * x)),
        p.length = ((l.map (fun q => q.map (fun x => s * x))).headD []).length)
      ↔ ∀ p ∈ l, p.length = (l.headD []).length := by
  cases l with
  | nil => simp
  | cons q t =>
    simp only [List.map_cons, List.headD_cons, List.length_map]
    constructor
    · intro h p hp
      have := h (p.map (fun x => s * x)) (by simpa using List.mem_map_of_mem _ hp)
      simpa using this
    · intro h p hp
      rcases List.mem_cons.mp hp with rfl | hp2
      · simp
      · obtain ⟨r, hr, rfl⟩ := List.mem_map.mp hp2
        simpa using h r (List.mem_cons_of_mem _ hr)



/-- Scaling every coordinate by s scales the polyhedron volume by |s|^3. -/
theorem get_volume_smul (s : ℚ) (facets : List (List Point)) :
    get_volume (facets.map (fun f => f.map (fun p => p.map (fun x => s * x))))
      = (get_volume facets).map (fun v => |s|^3 * v) := by
  cases facets with
  | nil => rfl
  | cons g gs =>
    simp only [List.map_cons, get_volume]
    have hfl : ((g.map (fun p => p.map (fun x => s * x)))
          :: gs.map (fun f => f.map (fun p => p.map (fun x => s * x)))).flatten
        = (g :: gs).flatten.map (fun p => p.map (fun x => s * x)) := by
      have := (List.map_flatten (fun p => p.map (fun x => s * x)) (g :: gs)).symm
      simpa using this
    rw [hfl]
    by_cases h : ∀ p ∈ (g :: gs).flatten, p.length = ((g :: gs).flatten.headD []).length
    · rw [if_pos ((width_guard_smul s (g :: gs).flatten).mpr h), if_pos h]
      rw [get_centroid_dedup_smul s (g :: gs).flatten
        ((g :: gs).flatten.headD []).length h]
      rw [show (g.map (fun p => p.map (fun x => s * x)))
            :: gs.map (fun f => f.map (fun p => p.map (fun x => s * x)))
          = (g :: gs).map (fun f => f.map (fun p => p.map (fun x => s * x))) from rfl]
      rw [tetraInputs_smul, tetraSum_smul]
    · rw [if_neg (fun hc => h ((width_guard_smul s (g :: gs).flatten).mp hc)), if_neg h]
      rfl



/-- C7 amended: multiplying every vertex coordinate by s multiplies every
returned volume by |s|^3 (which equals s^3 exactly when 0 <= s), for
get_volume_tetra, get_volume_hexa and get_volume alike. -/
theorem volume_scaling_homogeneity (s : ℚ) :
    (∀ pts : List Point,
        get_volume_tetra (pts.map (fun p => p.map (fun x => s * x)))
          = (get_volume_tetra pts).map (fun v => |s|^3 * v))
    ∧ (∀ pts : List Point,
        get_volume_hexa (pts.map (fun p => p.map (fun x => s * x)))
          = (get_volume_hexa pts).map (fun v => |s|^3 * v))
    ∧ (∀ facets : List (List Point),
        get_volume (facets.map (fun f => f.map (fun p => p.map (fun x => s * x))))
          = (get_volume facets).map (fun v => |s|^3 * v))
    ∧ (0 ≤ s → |s|^3 = s^3) :=
  ⟨get_volume_tetra_smul s, get_volume_hexa_smul s, get_volume_smul s,
    fun hs => by rw [abs_of_nonneg hs]⟩

/-- Witness for C7 amended: scaling the unit right tetrahedron by 2. -/
theorem volume_scaling_homogeneity_witness :
    get_volume_tetra ([[0,0,0],[1,0,0],[0,1,0],[0,0,1]].map
        (fun p => p.map (fun x => (2:ℚ) * x)))
      = (get_volume_tetra [[0,0,0],[1,0,0],[0,1,0],[0,0,1]]).map (fun v => |(2:ℚ)|^3 * v)
    ∧ |(2:ℚ)|^3 = 2^3 :=
  ⟨(volume_scaling_homogeneity 2).1 [[0,0,0],[1,0,0],[0,1,0],[0,0,1]],
    (volume_scaling_homogeneity 2).2.2.2 (by norm_num)⟩

/-- Counterexample to C7 as stated: scaling by s = -1 leaves the (absolute)
volume unchanged, so it is not multiplied by (-1)^3. -/
theorem volume_scaling_counterexample :
    ¬ (get_volume_tetra ([[0,0,0],[1,0,0],[0,1,0],[0,0,1]].map
          (fun p => p.map (fun x => (-1:ℚ) * x)))
        = (get_volume_tetra [[0,0,0],[1,0,0],[0,1,0],[0,0,1]]).map
            (fun v => (-1:ℚ)^3 * v)) := by
  norm_num [get_volume_tetra, coordD, det3]

